import Mathlib

/-!
# Verification of the trade-stream reconciliation engine of `src/App.js`

Shallow embedding of the reconciliation logic of the stock-price frontend:
the live-tick merge handler `onTick`, the historical-fetch handler (the
`.then` callback of the history request), and the read-time `cleanData`
sort-and-deduplicate pass.  Timestamps are modelled as `Int` (the result of
`new Date(x).getTime()` for a numeric-parsable input) and prices as `ℚ`
(the source uses JS numbers; every constant appearing in the program logic,
in particular the epsilon `0.001`, is an exact decimal).  The `volume`
field is carried by the source opaquely and never read by any of the logic
modelled here, so it is omitted from the record type.
-/

/-- A normalized trade record: `{symbol, timestamp, price}` with a
numeric (successfully parsed) timestamp and a present numeric price.
(`volume` is never inspected by the reconciliation logic and is omitted.) -/
structure Trade where
  symbol : String
  timestamp : Int
  price : ℚ
deriving DecidableEq

/-- The duplicate-delivery threshold `0.001` of `App.js` line 105. -/
def eps : ℚ := 1/1000

/-- The live-tick merge handler `onTick` of `App.js` lines 89–120, acting on
the selected symbol's stored series `cur` and the delta ref `delta`:
* a tick for a non-selected symbol is ignored (line 90);
* into an empty series: store `[t]` and set delta to 0 (lines 94–97);
* same timestamp as the tail: if `|t.price - last.price| < 0.001` ignore the
  tick (lines 105–108), otherwise replace the tail (`cur.slice(0,-1)` then
  `t`) and set delta to `t.price - last.price` (lines 109–112);
* any other timestamp (greater or smaller than the tail's): append, and set
  delta to `t.price - last.price` (lines 115–118). -/
def onTick (selected : String) (cur : List Trade) (delta : ℚ) (t : Trade) :
    List Trade × ℚ :=
  if t.symbol ≠ selected then (cur, delta)
  else
    match cur.getLast? with
    | none => ([t], 0)
    | some lastTrade =>
      if t.timestamp = lastTrade.timestamp then
        if |t.price - lastTrade.price| < eps then (cur, delta)
        else (cur.dropLast ++ [t], t.price - lastTrade.price)
      else (cur ++ [t], t.price - lastTrade.price)

/-- Folding a finite sequence of live ticks through `onTick`, one at a time. -/
def mergeTicks (selected : String) (cur : List Trade) (delta : ℚ) :
    List Trade → List Trade × ℚ
  | [] => (cur, delta)
  | t :: ts =>
    let r := onTick selected cur delta t
    mergeTicks selected r.1 r.2 ts

/-- Stable insertion of a trade into an already-sorted accumulator: the new
trade goes after every element whose timestamp is `≤` its own. -/
def insertTrade (t : Trade) : List Trade → List Trade
  | [] => [t]
  | u :: us =>
    if u.timestamp ≤ t.timestamp then u :: insertTrade t us
    else t :: u :: us

/-- The stable ascending sort by timestamp of `App.js` lines 39 and 49
(`[...trades].sort((a,b) => a - b)` on parsed timestamps).  A stable
comparison sort's output is uniquely determined by the comparator, so the
ECMAScript-mandated stable `Array.prototype.sort` is realised extensionally
by stable insertion sort. -/
def sortTrades (l : List Trade) : List Trade :=
  l.foldl (fun acc t => insertTrade t acc) []

/-- One `seen.set(time, trade)` step of `App.js` line 45, on a JS `Map`
represented as its insertion-ordered entry list: setting an existing key
overwrites that key's value in place, setting a fresh key appends. -/
def seenSet (acc : List Trade) (t : Trade) : List Trade :=
  if acc.any (fun u => u.timestamp == t.timestamp) then
    acc.map (fun u => if u.timestamp == t.timestamp then t else u)
  else acc ++ [t]

/-- The `Map`-based deduplication of `App.js` lines 42–46: `seen.set(time,
trade)` over each trade in order keeps, per distinct timestamp, the key
position of its first occurrence and the value of its last occurrence;
`Array.from(seen.values())` then lists the values in first-occurrence key
order. -/
def dedupLastByTs (l : List Trade) : List Trade :=
  l.foldl seenSet []

/-- `cleanData` of `App.js` lines 37–50: sort ascending by timestamp,
deduplicate keeping the last trade per timestamp, sort again. -/
def cleanData (l : List Trade) : List Trade :=
  sortTrades (dedupLastByTs (sortTrades l))

/-- A series strictly increasing in timestamp. -/
def StrictIncr (l : List Trade) : Prop :=
  List.Pairwise (fun a b => a.timestamp < b.timestamp) l

instance : DecidablePred StrictIncr := fun l =>
  inferInstanceAs (Decidable (List.Pairwise _ l))

/-- The component state relevant to the reconciliation engine: the selected
symbol, the per-symbol store `dataBySymbol`, and the delta ref. -/
structure AppState where
  selected : String
  dataBySymbol : String → List Trade
  delta : ℚ

/-- The historical-fetch `.then` handler of `App.js` lines 70–76, applied when
the fetch issued for symbol `requested` resolves with batch `data` (the
source's `res.data || []`; a null payload is the empty batch).  The store is
updated at the key `requested` — the `selected` captured by the closure at
fetch-issue time — via `{...prev, [selected]: res.data || []}`, and, when the
batch has at least two records, the delta ref is overwritten with
`data[len-1].price - data[len-2].price`; otherwise the delta ref is not
touched.  There is no staleness guard: the handler runs the same way whether
or not `requested` is still the selected symbol. -/
def applyFetch (requested : String) (data : List Trade) (st : AppState) :
    AppState :=
  let newMap : String → List Trade :=
    fun s => if s = requested then data else st.dataBySymbol s
  if h : 2 ≤ data.length then
    { selected := st.selected
      dataBySymbol := newMap
      delta := (data.get ⟨data.length - 1, by omega⟩).price -
        (data.get ⟨data.length - 2, by omega⟩).price }
  else
    { selected := st.selected, dataBySymbol := newMap, delta := st.delta }

/-- The read path `rows` of `App.js` lines 136–139: `cleanData` applied at
render time to the selected symbol's stored series.  (The source also
rewrites each record's `timestamp` field to `getTime()`; on already-numeric
timestamps that rewrite is the identity and is omitted here.) -/
def rows (st : AppState) : List Trade :=
  cleanData (st.dataBySymbol st.selected)

/-- A raw record as delivered by the transport, before any shaping: the
price may be absent (`undefined`, modelled `none`) and the timestamp may
fail to parse (`new Date(x).getTime()` is `NaN`, modelled `none`). -/
structure RawTrade where
  symbol : String
  tsParsed : Option Int
  price : Option ℚ
deriving DecidableEq

/-- `===` on two `getTime()` results; `NaN === x` is false for every `x`. -/
def tsEqRaw : Option Int → Option Int → Bool
  | some a, some b => a == b
  | _, _ => false

/-- `Math.abs(p - q) < 0.001` where a missing operand makes the left side
`NaN`, and `NaN < 0.001` is false. -/
def priceNearRaw : Option ℚ → Option ℚ → Bool
  | some p, some q => decide (|p - q| < eps)
  | _, _ => false

/-- `p - q` on possibly-missing prices: a missing operand yields `NaN`
(modelled `none`). -/
def subRaw : Option ℚ → Option ℚ → Option ℚ
  | some p, some q => some (p - q)
  | _, _ => none

/-- `onTick` over raw records exactly as the source receives them: the
source performs no validation or normalization, so records with missing
prices or unparsable timestamps flow through the same branches of
`App.js` lines 89–120, with JS `NaN` comparisons all evaluating to false. -/
def onTickRaw (selected : String) (cur : List RawTrade) (delta : Option ℚ)
    (t : RawTrade) : List RawTrade × Option ℚ :=
  if t.symbol ≠ selected then (cur, delta)
  else
    match cur.getLast? with
    | none => ([t], some 0)
    | some lastTrade =>
      if tsEqRaw t.tsParsed lastTrade.tsParsed then
        if priceNearRaw t.price lastTrade.price then (cur, delta)
        else (cur.dropLast ++ [t], subRaw t.price lastTrade.price)
      else (cur ++ [t], subRaw t.price lastTrade.price)

/-- The store update of `App.js` line 70 over raw records:
`setDataBySymbol(prev => ({...prev, [selected]: res.data || []}))` stores
the fetched batch verbatim — no normalization pass runs on it. -/
def seedStoreRaw (requested : String) (data : List RawTrade)
    (store : String → List RawTrade) : String → List RawTrade :=
  fun s => if s = requested then data else store s

section ratEval

attribute [local semireducible] Rat.sub Rat.add Rat.mul Rat.inv

/-! ## Branch lemmas for `onTick` -/

lemma onTick_of_not_selected (selected : String) (cur : List Trade)
    (delta : ℚ) (t : Trade) (hsym : ¬ t.symbol = selected) :
    onTick selected cur delta t = (cur, delta) := by
  simp [onTick, hsym]

lemma onTick_of_empty (selected : String) (delta : ℚ) (t : Trade)
    (hsym : t.symbol = selected) :
    onTick selected [] delta t = ([t], 0) := by
  simp [onTick, hsym]

lemma onTick_of_new_ts (selected : String) (cur : List Trade) (delta : ℚ)
    (t lastTrade : Trade) (hsym : t.symbol = selected)
    (hlast : cur.getLast? = some lastTrade)
    (hts : ¬ t.timestamp = lastTrade.timestamp) :
    onTick selected cur delta t = (cur ++ [t], t.price - lastTrade.price) := by
  simp [onTick, hsym, hlast, hts]

lemma onTick_of_dup (selected : String) (cur : List Trade) (delta : ℚ)
    (t lastTrade : Trade) (hsym : t.symbol = selected)
    (hlast : cur.getLast? = some lastTrade)
    (hts : t.timestamp = lastTrade.timestamp)
    (hnear : |t.price - lastTrade.price| < eps) :
    onTick selected cur delta t = (cur, delta) := by
  simp [onTick, hsym, hlast, hts, hnear]

lemma onTick_of_correction (selected : String) (cur : List Trade) (delta : ℚ)
    (t lastTrade : Trade) (hsym : t.symbol = selected)
    (hlast : cur.getLast? = some lastTrade)
    (hts : t.timestamp = lastTrade.timestamp)
    (hfar : ¬ |t.price - lastTrade.price| < eps) :
    onTick selected cur delta t =
      (cur.dropLast ++ [t], t.price - lastTrade.price) := by
  simp [onTick, hsym, hlast, hts, hfar]

lemma abs_sub_self_lt_eps (p : ℚ) : |p - p| < eps := by
  rw [sub_self, abs_zero, eps]
  norm_num

/-! ## Claims C1, C2, C5, C6, C7, C8, C9 -/

/-- Claim C1 counterexample: after the series `[{t:100,p:50},{t:110,p:52}]`
with delta 2, merging the older tick `{t:105,p:999}` does not leave the
series and delta unchanged — the code appends the tick and sets delta to
`999 - 52 = 947`. -/
theorem c1_older_tick_not_discarded :
    onTick "A" [⟨"A", 100, 50⟩, ⟨"A", 110, 52⟩] 2 ⟨"A", 105, 999⟩ =
      ([⟨"A", 100, 50⟩, ⟨"A", 110, 52⟩, ⟨"A", 105, 999⟩], 947) ∧
    onTick "A" [⟨"A", 100, 50⟩, ⟨"A", 110, 52⟩] 2 ⟨"A", 105, 999⟩ ≠
      ([⟨"A", 100, 50⟩, ⟨"A", 110, 52⟩], 2) := by
  constructor <;> decide

/-- Claim C1 (amended): for every non-empty series, an incoming live tick
whose timestamp is strictly less than the tail's is NOT discarded: the code
only tests the tail's timestamp for equality, so any tick with a different
timestamp — in particular a strictly older one — is appended to the series,
and the delta is set to `t.price - tail.price`. -/
theorem onTick_older_tick_appended (selected : String) (cur : List Trade)
    (delta : ℚ) (t lastTrade : Trade) (hsym : t.symbol = selected)
    (hlast : cur.getLast? = some lastTrade)
    (hlt : t.timestamp < lastTrade.timestamp) :
    onTick selected cur delta t = (cur ++ [t], t.price - lastTrade.price) :=
  onTick_of_new_ts selected cur delta t lastTrade hsym hlast (ne_of_lt hlt)

/-- Witness for `onTick_older_tick_appended` at the spec's Scenario 5 input. -/
theorem onTick_older_tick_appended_witness :
    onTick "B" [⟨"B", 100, 50⟩, ⟨"B", 110, 52⟩] 2 ⟨"B", 105, 999⟩ =
      ([⟨"B", 100, 50⟩, ⟨"B", 110, 52⟩, ⟨"B", 105, 999⟩], 999 - 52) :=
  onTick_older_tick_appended "B" [⟨"B", 100, 50⟩, ⟨"B", 110, 52⟩] 2
    ⟨"B", 105, 999⟩ ⟨"B", 110, 52⟩ rfl (by decide) (by decide)

/-- Claim C2 counterexample: on `[{t:100,p:50},{t:110,p:52}]`, merging the
same-timestamp correction `{t:110,p:55}` replaces the tail but sets delta to
`55 - 52 = 3` (the replaced tail's old price), not `55 - 50 = 5` (the element
below the corrected slot) as the claim states. -/
theorem c2_correction_delta_uses_old_tail :
    onTick "A" [⟨"A", 100, 50⟩, ⟨"A", 110, 52⟩] 2 ⟨"A", 110, 55⟩ =
      ([⟨"A", 100, 50⟩, ⟨"A", 110, 55⟩], 3) ∧ (3 : ℚ) ≠ 5 := by
  constructor <;> decide

/-- Claim C2 (amended): for every non-empty series (in particular one with at
least two elements), merging a tick with the tail's timestamp whose price
differs from the tail's by at least `eps` replaces the tail with `t` and sets
the delta to `t.price` minus the REPLACED TAIL'S OLD price, not minus the
price of the element now second-from-last. -/
theorem onTick_correction_replaces_tail (selected : String) (cur : List Trade)
    (delta : ℚ) (t lastTrade : Trade) (hsym : t.symbol = selected)
    (hlast : cur.getLast? = some lastTrade)
    (hts : t.timestamp = lastTrade.timestamp)
    (hfar : ¬ |t.price - lastTrade.price| < eps) :
    onTick selected cur delta t =
      (cur.dropLast ++ [t], t.price - lastTrade.price) :=
  onTick_of_correction selected cur delta t lastTrade hsym hlast hts hfar

/-- Witness for `onTick_correction_replaces_tail`. -/
theorem onTick_correction_replaces_tail_witness :
    onTick "B" [⟨"B", 100, 50⟩, ⟨"B", 110, 52⟩] 2 ⟨"B", 110, 60⟩ =
      ([⟨"B", 100, 50⟩, ⟨"B", 110, 60⟩], 60 - 52) :=
  onTick_correction_replaces_tail "B" [⟨"B", 100, 50⟩, ⟨"B", 110, 52⟩] 2
    ⟨"B", 110, 60⟩ ⟨"B", 110, 52⟩ rfl (by decide) (by decide) (by decide)

/-- Claim C5 counterexample: seeding the selected symbol with an empty batch
while the delta ref holds 5 leaves the series empty (fewer than two points)
but the delta stays 5, not 0 — the fetch handler never resets the delta. -/
theorem c5_short_seed_keeps_stale_delta :
    ((applyFetch "B" [] ⟨"B", fun _ => [], 5⟩).dataBySymbol "B" = [] ∧
      (applyFetch "B" [] ⟨"B", fun _ => [], 5⟩).delta = 5) ∧ (5 : ℚ) ≠ 0 := by
  refine ⟨⟨?_, ?_⟩, ?_⟩ <;> decide

/-- Claim C5 (amended): merging a tick into an empty series does set the
delta to 0; but seeding with a batch of fewer than two records does not reset
the delta — it is left at whatever value it held before (possibly nonzero). -/
theorem delta_after_empty_merge_and_short_seed (selected : String) (delta : ℚ)
    (t : Trade) (requested : String) (data : List Trade) (st : AppState)
    (hsym : t.symbol = selected) (hshort : data.length < 2) :
    onTick selected [] delta t = ([t], 0) ∧
      (applyFetch requested data st).delta = st.delta := by
  refine ⟨onTick_of_empty selected delta t hsym, ?_⟩
  rw [applyFetch, dif_neg (by omega)]

/-- Witness for `delta_after_empty_merge_and_short_seed`. -/
theorem delta_after_empty_merge_and_short_seed_witness :
    onTick "A" [] 3 ⟨"A", 1, 10⟩ = ([⟨"A", 1, 10⟩], 0) ∧
      (applyFetch "C" [] ⟨"C", fun _ => [], 5⟩).delta =
        (⟨"C", fun _ => [], 5⟩ : AppState).delta :=
  delta_after_empty_merge_and_short_seed "A" 3 ⟨"A", 1, 10⟩ "C" []
    ⟨"C", fun _ => [], 5⟩ rfl (by decide)

/-- Claim C6 (confirmed): for every non-empty series, a tick with the tail's
timestamp whose price is within `eps` of the tail's price is ignored: the
series and the delta are returned exactly as they were. -/
theorem onTick_near_duplicate_noop (selected : String) (cur : List Trade)
    (delta : ℚ) (t lastTrade : Trade) (hsym : t.symbol = selected)
    (hlast : cur.getLast? = some lastTrade)
    (hts : t.timestamp = lastTrade.timestamp)
    (hnear : |t.price - lastTrade.price| < eps) :
    onTick selected cur delta t = (cur, delta) :=
  onTick_of_dup selected cur delta t lastTrade hsym hlast hts hnear

/-- Witness for `onTick_near_duplicate_noop` at the spec's Scenario 3 input
(price `52.0001`, within epsilon of the tail's `52`). -/
theorem onTick_near_duplicate_noop_witness :
    onTick "A" [⟨"A", 100, 50⟩, ⟨"A", 110, 52⟩] 2
        ⟨"A", 110, 520001/10000⟩ =
      ([⟨"A", 100, 50⟩, ⟨"A", 110, 52⟩], 2) :=
  onTick_near_duplicate_noop "A" [⟨"A", 100, 50⟩, ⟨"A", 110, 52⟩] 2
    ⟨"A", 110, 520001/10000⟩ ⟨"A", 110, 52⟩ rfl (by decide) (by decide)
    (by decide)

/-- Claim C7 (confirmed): merging the same tick twice in succession yields
the same series as merging it once, for every starting series and delta. -/
theorem mergeTicks_idempotent (selected : String) (cur : List Trade)
    (delta : ℚ) (t : Trade) :
    (mergeTicks selected cur delta [t, t]).1 =
      (mergeTicks selected cur delta [t]).1 := by
  show (onTick selected (onTick selected cur delta t).1
      (onTick selected cur delta t).2 t).1 = (onTick selected cur delta t).1
  by_cases hsym : t.symbol = selected
  · cases hcur : cur.getLast? with
    | none =>
      rw [List.getLast?_eq_none_iff] at hcur
      subst hcur
      rw [onTick_of_empty selected delta t hsym,
        onTick_of_dup selected [t] 0 t t hsym rfl rfl
          (abs_sub_self_lt_eps t.price)]
    | some lastTrade =>
      by_cases hts : t.timestamp = lastTrade.timestamp
      · by_cases hnear : |t.price - lastTrade.price| < eps
        · rw [onTick_of_dup selected cur delta t lastTrade hsym hcur hts hnear,
            onTick_of_dup selected cur delta t lastTrade hsym hcur hts hnear]
        · rw [onTick_of_correction selected cur delta t lastTrade hsym hcur
            hts hnear]
          rw [onTick_of_dup selected (cur.dropLast ++ [t])
            (t.price - lastTrade.price) t t hsym (List.getLast?_concat _) rfl
            (abs_sub_self_lt_eps t.price)]
      · rw [onTick_of_new_ts selected cur delta t lastTrade hsym hcur hts]
        rw [onTick_of_dup selected (cur ++ [t]) (t.price - lastTrade.price)
          t t hsym (List.getLast?_concat _) rfl (abs_sub_self_lt_eps t.price)]
  · rw [onTick_of_not_selected selected cur delta t hsym,
      onTick_of_not_selected selected cur delta t hsym]

/-- Claim C8 counterexample: the record `{symbol:"A", timestamp:100,
price:undefined}` (missing price) is malformed, yet merging it into an empty
series stores it, and seeding with a batch containing it stores it verbatim —
the code has no normalization pass. -/
theorem c8_malformed_record_enters_series :
    (⟨"A", some 100, none⟩ : RawTrade) ∈
        (onTickRaw "A" [] none ⟨"A", some 100, none⟩).1 ∧
      (⟨"A", some 100, none⟩ : RawTrade) ∈
        seedStoreRaw "A" [⟨"A", some 100, none⟩] (fun _ => []) "A" := by
  constructor <;> decide

/-- Claim C8 (amended): the code drops no records: raw records — including
malformed ones with a missing price or an unparsable timestamp — are stored
exactly as received.  Merging any raw tick for the selected symbol into an
empty series stores that record, and the fetch handler stores the raw batch
verbatim, so every batch record (malformed or not) enters the stored
series. -/
theorem raw_records_stored_verbatim (selected : String) (delta : Option ℚ)
    (r : RawTrade) (requested : String) (batch : List RawTrade)
    (store : String → List RawTrade) (hsym : r.symbol = selected)
    (hmem : r ∈ batch) :
    (onTickRaw selected [] delta r).1 = [r] ∧
      r ∈ seedStoreRaw requested batch store requested := by
  constructor
  · simp [onTickRaw, hsym]
  · simp [seedStoreRaw, hmem]

/-- Witness for `raw_records_stored_verbatim`: a priceless record and a
record with an unparsable timestamp both enter the store. -/
theorem raw_records_stored_verbatim_witness :
    (onTickRaw "A" [] none ⟨"A", some 100, none⟩).1 =
        [⟨"A", some 100, none⟩] ∧
      (⟨"A", none, some 50⟩ : RawTrade) ∈
        seedStoreRaw "A" [⟨"A", none, some 50⟩] (fun _ => []) "A" := by
  refine ⟨(raw_records_stored_verbatim "A" none ⟨"A", some 100, none⟩ "A"
    [⟨"A", some 100, none⟩] (fun _ => []) rfl (by decide)).1,
    (raw_records_stored_verbatim "A" none ⟨"A", none, some 50⟩ "A"
    [⟨"A", none, some 50⟩] (fun _ => []) rfl (by decide)).2⟩

/-- Claim C9 counterexample: with symbol "B" selected and delta 0, the late
arrival of a two-record fetch result requested for the superseded symbol "A"
is not silently discarded: it overwrites the delta ref with `107 - 100 = 7`,
even though "B"'s series is untouched. -/
theorem c9_stale_fetch_overwrites_delta :
    (applyFetch "A" [⟨"A", 10, 100⟩, ⟨"A", 20, 107⟩]
        ⟨"B", fun _ => [], 0⟩).delta = 7 ∧
      (7 : ℚ) ≠ 0 ∧ "A" ≠ "B" := by
  refine ⟨?_, ?_, ?_⟩ <;> decide

/-- Claim C9 (amended): a fetch result arriving for a symbol that is no
longer selected never seeds the currently selected symbol's series (the
payload is written under the requested symbol's key, captured at fetch-issue
time), and the selection is untouched; but the arrival is not fully
discarded: whenever the stale batch has at least two records, the delta
indicator is overwritten with the difference of the batch's last two
prices. -/
theorem applyFetch_stale_result (requested : String) (data : List Trade)
    (st : AppState) (hstale : requested ≠ st.selected) :
    (applyFetch requested data st).selected = st.selected ∧
      (applyFetch requested data st).dataBySymbol st.selected =
        st.dataBySymbol st.selected ∧
      ∀ h2 : 2 ≤ data.length,
        (applyFetch requested data st).delta =
          (data.get ⟨data.length - 1, by omega⟩).price -
            (data.get ⟨data.length - 2, by omega⟩).price := by
  rw [applyFetch]
  by_cases h2 : 2 ≤ data.length
  · rw [dif_pos h2]
    exact ⟨rfl, by simp [hstale.symm], fun _ => rfl⟩
  · rw [dif_neg h2]
    exact ⟨rfl, by simp [hstale.symm], fun h => absurd h h2⟩

/-- Witness for `applyFetch_stale_result`: the stale result for "A" leaves
the selected symbol "B"'s series unchanged. -/
theorem applyFetch_stale_result_witness :
    (applyFetch "A" [⟨"A", 10, 100⟩, ⟨"A", 20, 107⟩]
        ⟨"B", fun _ => [], 0⟩).dataBySymbol "B" = [] :=
  (applyFetch_stale_result "A" [⟨"A", 10, 100⟩, ⟨"A", 20, 107⟩]
    ⟨"B", fun _ => [], 0⟩ (by decide)).2.1

/-! ## Sortedness, stability and identity lemmas for `sortTrades` -/

lemma mem_insertTrade {b t : Trade} {l : List Trade} :
    b ∈ insertTrade t l ↔ b = t ∨ b ∈ l := by
  induction l with
  | nil => simp [insertTrade]
  | cons u us ih =>
    rw [insertTrade]
    by_cases hc : u.timestamp ≤ t.timestamp
    · rw [if_pos hc]
      simp only [List.mem_cons, ih]
      tauto
    · rw [if_neg hc]
      simp only [List.mem_cons]

lemma pairwise_le_insertTrade (t : Trade) (l : List Trade)
    (h : List.Pairwise (fun a b => a.timestamp ≤ b.timestamp) l) :
    List.Pairwise (fun a b => a.timestamp ≤ b.timestamp) (insertTrade t l) := by
  induction l with
  | nil => simp [insertTrade]
  | cons u us ih =>
    rw [List.pairwise_cons] at h
    rw [insertTrade]
    by_cases hc : u.timestamp ≤ t.timestamp
    · rw [if_pos hc, List.pairwise_cons]
      refine ⟨?_, ih h.2⟩
      intro b hb
      rcases mem_insertTrade.1 hb with hb | hb
      · subst hb; exact hc
      · exact h.1 b hb
    · rw [if_neg hc, List.pairwise_cons]
      refine ⟨?_, List.pairwise_cons.2 h⟩
      intro b hb
      rcases List.mem_cons.1 hb with hb | hb
      · subst hb; exact le_of_not_le hc
      · exact le_trans (le_of_not_le hc) (h.1 b hb)

lemma pairwise_le_foldl_insertTrade : ∀ (l acc : List Trade),
    List.Pairwise (fun a b => a.timestamp ≤ b.timestamp) acc →
      List.Pairwise (fun a b => a.timestamp ≤ b.timestamp)
        (l.foldl (fun acc t => insertTrade t acc) acc) := by
  intro l
  induction l with
  | nil => intro acc h; simpa using h
  | cons t ts ih =>
    intro acc h
    rw [List.foldl_cons]
    exact ih _ (pairwise_le_insertTrade t acc h)

lemma pairwise_le_sortTrades (l : List Trade) :
    List.Pairwise (fun a b => a.timestamp ≤ b.timestamp) (sortTrades l) :=
  pairwise_le_foldl_insertTrade l [] List.Pairwise.nil

lemma filter_insertTrade (t : Trade) (τ : Int) : ∀ (l : List Trade),
    List.Pairwise (fun a b => a.timestamp ≤ b.timestamp) l →
      (insertTrade t l).filter (fun u => u.timestamp == τ) =
        (l ++ [t]).filter (fun u => u.timestamp == τ) := by
  intro l
  induction l with
  | nil => intro _; rfl
  | cons u us ih =>
    intro h
    rw [List.pairwise_cons] at h
    rw [insertTrade]
    by_cases hc : u.timestamp ≤ t.timestamp
    · rw [if_pos hc]
      rw [List.cons_append, List.filter_cons, List.filter_cons, ih h.2]
    · rw [if_neg hc]
      by_cases hτ : t.timestamp = τ
      · have hnone : (u :: us).filter (fun u => u.timestamp == τ) = [] := by
          rw [List.filter_eq_nil_iff]
          intro b hb
          have hub : u.timestamp ≤ b.timestamp := by
            rcases List.mem_cons.1 hb with hb | hb
            · subst hb; exact le_refl _
            · exact h.1 b hb
          have : τ < b.timestamp := lt_of_lt_of_le (hτ ▸ lt_of_not_le hc) hub
          simp only [beq_iff_eq]
          omega
        rw [List.filter_cons, List.filter_append, hnone]
        simp [hτ]
      · rw [List.filter_cons, List.filter_append]
        have ht : ((fun u => u.timestamp == τ) t) = false := by
          simp [hτ]
        simp [ht]

lemma filter_foldl_insertTrade (τ : Int) : ∀ (l acc : List Trade),
    List.Pairwise (fun a b => a.timestamp ≤ b.timestamp) acc →
      (l.foldl (fun acc t => insertTrade t acc) acc).filter
          (fun u => u.timestamp == τ) =
        acc.filter (fun u => u.timestamp == τ) ++
          l.filter (fun u => u.timestamp == τ) := by
  intro l
  induction l with
  | nil => intro acc h; simp
  | cons t ts ih =>
    intro acc h
    rw [List.foldl_cons, ih _ (pairwise_le_insertTrade t acc h),
      filter_insertTrade t τ acc h, List.filter_append, List.filter_cons]
    by_cases ht : t.timestamp = τ
    · simp [ht]
    · simp [ht]

lemma filter_sortTrades (l : List Trade) (τ : Int) :
    (sortTrades l).filter (fun u => u.timestamp == τ) =
      l.filter (fun u => u.timestamp == τ) := by
  have := filter_foldl_insertTrade τ l [] List.Pairwise.nil
  simpa [sortTrades] using this

lemma insertTrade_of_le (t : Trade) : ∀ (l : List Trade),
    (∀ u ∈ l, u.timestamp ≤ t.timestamp) → insertTrade t l = l ++ [t] := by
  intro l
  induction l with
  | nil => intro _; rfl
  | cons u us ih =>
    intro h
    rw [insertTrade, if_pos (h u (List.mem_cons_self u us)), List.cons_append,
      ih (fun v hv => h v (List.mem_cons_of_mem u hv))]

lemma foldl_insertTrade_of_pairwise : ∀ (l acc : List Trade),
    List.Pairwise (fun a b => a.timestamp ≤ b.timestamp) (acc ++ l) →
      l.foldl (fun acc t => insertTrade t acc) acc = acc ++ l := by
  intro l
  induction l with
  | nil => intro acc _; simp
  | cons t ts ih =>
    intro acc h
    have h' : List.Pairwise (fun a b => a.timestamp ≤ b.timestamp)
        ((acc ++ [t]) ++ ts) := by
      rw [List.append_assoc, List.singleton_append]
      exact h
    have hcross : ∀ u ∈ acc, u.timestamp ≤ t.timestamp := by
      rw [List.pairwise_append] at h
      exact fun u hu => h.2.2 u hu t (List.mem_cons_self t ts)
    rw [List.foldl_cons, insertTrade_of_le t acc hcross, ih _ h',
      List.append_assoc, List.singleton_append]

lemma sortTrades_of_pairwise_le (l : List Trade)
    (h : List.Pairwise (fun a b => a.timestamp ≤ b.timestamp) l) :
    sortTrades l = l := by
  have := foldl_insertTrade_of_pairwise l [] (by simpa using h)
  simpa [sortTrades] using this

/-! ## Lemmas for the `Map`-based deduplication (`seenSet` / `dedupLastByTs`) -/

lemma ts_replace (t u : Trade) :
    (if u.timestamp == t.timestamp then t else u).timestamp = u.timestamp := by
  by_cases h : u.timestamp = t.timestamp
  · simp [h]
  · simp [h]

lemma map_ts_map_replace (t : Trade) (acc : List Trade) :
    (acc.map (fun u => if u.timestamp == t.timestamp then t else u)).map
        (fun u => u.timestamp) =
      acc.map (fun u => u.timestamp) := by
  rw [List.map_map]
  exact List.map_congr_left (fun u _ => ts_replace t u)

lemma strictIncr_map_replace (t : Trade) (acc : List Trade)
    (h : StrictIncr acc) :
    StrictIncr (acc.map (fun u => if u.timestamp == t.timestamp then t else u)) := by
  rw [StrictIncr, List.pairwise_map]
  refine h.imp ?_
  intro a b hab
  rw [ts_replace, ts_replace]
  exact hab

lemma strictIncr_nodup_ts (l : List Trade) (h : StrictIncr l) :
    (l.map (fun u => u.timestamp)).Nodup := by
  have : List.Pairwise (fun a b => a ≠ b) (l.map fun u => u.timestamp) := by
    rw [List.pairwise_map]
    exact h.imp (fun hab => ne_of_lt hab)
  exact this

lemma filter_comp_replace (t : Trade) (τ : Int) (acc : List Trade) :
    acc.filter ((fun u => u.timestamp == τ) ∘
        (fun u => if u.timestamp == t.timestamp then t else u)) =
      acc.filter (fun u => u.timestamp == τ) := by
  apply List.filter_congr
  intro a _
  simp only [Function.comp_apply, ts_replace]

lemma filter_map_replace_ne (t : Trade) (τ : Int) (hτ : ¬ τ = t.timestamp)
    (acc : List Trade) :
    (acc.map (fun u => if u.timestamp == t.timestamp then t else u)).filter
        (fun u => u.timestamp == τ) =
      acc.filter (fun u => u.timestamp == τ) := by
  rw [List.filter_map, filter_comp_replace]
  have hmap : (acc.filter (fun u => u.timestamp == τ)).map
      (fun u => if u.timestamp == t.timestamp then t else u) =
      (acc.filter (fun u => u.timestamp == τ)).map id := by
    apply List.map_congr_left
    intro a ha
    have ha' : a.timestamp = τ := by
      have := List.of_mem_filter ha
      exact beq_iff_eq.1 this
    have hne : ¬ a.timestamp = t.timestamp := by rw [ha']; exact hτ
    simp [hne]
  rw [hmap, List.map_id]

lemma filter_key_of_nodup (τ : Int) : ∀ acc : List Trade,
    (acc.map (fun u => u.timestamp)).Nodup →
      acc.any (fun u => u.timestamp == τ) = true →
      ∃ u₀, u₀ ∈ acc ∧ u₀.timestamp = τ ∧
        acc.filter (fun u => u.timestamp == τ) = [u₀] := by
  intro acc
  induction acc with
  | nil => intro _ hany; simp at hany
  | cons u us ih =>
    intro hnd hany
    rw [List.map_cons, List.nodup_cons] at hnd
    by_cases hu : u.timestamp = τ
    · refine ⟨u, List.mem_cons_self u us, hu, ?_⟩
      have hnone : us.filter (fun v => v.timestamp == τ) = [] := by
        rw [List.filter_eq_nil_iff]
        intro v hv hpv
        apply hnd.1
        rw [hu, ← beq_iff_eq.1 hpv]
        exact List.mem_map_of_mem _ hv
      have hc : ((fun v => v.timestamp == τ) u = true) := by simp [hu]
      rw [List.filter_cons, if_pos hc, hnone]
    · have hany' : us.any (fun v => v.timestamp == τ) = true := by
        rcases List.any_eq_true.1 hany with ⟨v, hv, hpv⟩
        rcases List.mem_cons.1 hv with rfl | hv'
        · exact absurd (beq_iff_eq.1 hpv) hu
        · exact List.any_eq_true.2 ⟨v, hv', hpv⟩
      rcases ih hnd.2 hany' with ⟨u₀, hmem, hts, hfil⟩
      refine ⟨u₀, List.mem_cons_of_mem u hmem, hts, ?_⟩
      have hc : ¬ ((fun v => v.timestamp == τ) u = true) := by simp [hu]
      rw [List.filter_cons, if_neg hc, hfil]

lemma filter_map_replace_self (t : Trade) (acc : List Trade)
    (hnd : (acc.map (fun u => u.timestamp)).Nodup)
    (hany : acc.any (fun u => u.timestamp == t.timestamp) = true) :
    (acc.map (fun u => if u.timestamp == t.timestamp then t else u)).filter
        (fun u => u.timestamp == t.timestamp) = [t] := by
  rw [List.filter_map, filter_comp_replace]
  rcases filter_key_of_nodup t.timestamp acc hnd hany with ⟨u₀, _, hts, hfil⟩
  rw [hfil, List.map_cons, List.map_nil]
  simp [hts]

lemma strictIncr_foldl_seenSet : ∀ (l acc : List Trade),
    List.Pairwise (fun a b => a.timestamp ≤ b.timestamp) l →
      StrictIncr acc →
      (∀ u ∈ acc, ∀ v ∈ l, u.timestamp ≤ v.timestamp) →
      StrictIncr (l.foldl seenSet acc) := by
  intro l
  induction l with
  | nil => intro acc _ h2 _; simpa using h2
  | cons t ts ih =>
    intro acc h1 h2 h3
    rw [List.pairwise_cons] at h1
    rw [List.foldl_cons, seenSet]
    by_cases hany : acc.any (fun u => u.timestamp == t.timestamp) = true
    · rw [if_pos hany]
      apply ih _ h1.2 (strictIncr_map_replace t acc h2)
      intro u hu v hv
      rcases List.mem_map.1 hu with ⟨u₀, hu₀, rfl⟩
      rw [ts_replace]
      exact h3 u₀ hu₀ v (List.mem_cons_of_mem t hv)
    · rw [if_neg hany]
      apply ih _ h1.2 ?_ ?_
      · rw [StrictIncr, List.pairwise_append]
        refine ⟨h2, List.pairwise_singleton _ _, ?_⟩
        intro a ha b hb
        rw [List.mem_singleton] at hb
        have hle := h3 a ha t (List.mem_cons_self t ts)
        have hne : ¬ a.timestamp = t.timestamp := by
          intro he
          exact hany (List.any_eq_true.2 ⟨a, ha, beq_iff_eq.2 he⟩)
        rw [hb]
        omega
      · intro u hu v hv
        rcases List.mem_append.1 hu with hu' | hu'
        · exact h3 u hu' v (List.mem_cons_of_mem t hv)
        · rw [List.mem_singleton] at hu'
          rw [hu']
          exact h1.1 v hv

lemma mem_ts_foldl_seenSet : ∀ (l acc : List Trade) (τ : Int),
    (τ ∈ (l.foldl seenSet acc).map (fun u => u.timestamp) ↔
      τ ∈ (acc ++ l).map (fun u => u.timestamp)) := by
  intro l
  induction l with
  | nil => intro acc τ; simp
  | cons t ts ih =>
    intro acc τ
    rw [List.foldl_cons, seenSet]
    by_cases hany : acc.any (fun u => u.timestamp == t.timestamp) = true
    · rw [if_pos hany, ih]
      have htmem : t.timestamp ∈ acc.map (fun u => u.timestamp) := by
        rcases List.any_eq_true.1 hany with ⟨v, hv, hvt⟩
        rw [← beq_iff_eq.1 hvt]
        exact List.mem_map_of_mem _ hv
      rw [List.map_append, List.map_append, map_ts_map_replace]
      simp only [List.mem_append, List.map_cons, List.mem_cons]
      constructor
      · rintro (h | h)
        · exact Or.inl h
        · exact Or.inr (Or.inr h)
      · rintro (h | h | h)
        · exact Or.inl h
        · subst h; exact Or.inl htmem
        · exact Or.inr h
    · rw [if_neg hany, ih]
      simp only [List.map_append, List.mem_append, List.map_cons,
        List.map_nil, List.mem_cons, List.mem_singleton, List.not_mem_nil,
        or_false]
      tauto

lemma getLast?_append_cons (y x : List Trade) (t : Trade) :
    (y ++ t :: x).getLast? = (t :: x).getLast? := by
  rw [List.getLast?_append]
  cases h : (t :: x).getLast? with
  | none => exact absurd (List.getLast?_eq_none_iff.1 h) (List.cons_ne_nil _ _)
  | some v => rw [Option.or_some]

lemma filter_getLast_seenSet_step (t : Trade) (acc ts' : List Trade) (τ : Int)
    (hnd : (acc.map (fun u => u.timestamp)).Nodup) :
    ((seenSet acc t ++ ts').filter (fun u => u.timestamp == τ)).getLast? =
      ((acc ++ t :: ts').filter (fun u => u.timestamp == τ)).getLast? := by
  rw [seenSet]
  by_cases hany : acc.any (fun u => u.timestamp == t.timestamp) = true
  · rw [if_pos hany]
    by_cases hτ : τ = t.timestamp
    · subst hτ
      rw [List.filter_append, filter_map_replace_self t acc hnd hany,
        List.filter_append]
      have hfc : List.filter (fun u => u.timestamp == t.timestamp) (t :: ts') =
          t :: List.filter (fun u => u.timestamp == t.timestamp) ts' := by
        simp [List.filter_cons]
      rw [hfc, List.singleton_append, getLast?_append_cons]
    · rw [List.filter_append, filter_map_replace_ne t τ hτ acc,
        List.filter_append]
      have hfc : List.filter (fun u => u.timestamp == τ) (t :: ts') =
          List.filter (fun u => u.timestamp == τ) ts' := by
        simp [List.filter_cons, Ne.symm hτ]
      rw [hfc]
  · rw [if_neg hany, List.append_assoc, List.singleton_append]

lemma seenSet_self_describes (t : Trade) (acc : List Trade)
    (hnd : (acc.map (fun u => u.timestamp)).Nodup)
    (hacc : ∀ u ∈ acc,
      (acc.filter (fun v => v.timestamp == u.timestamp)).getLast? = some u) :
    ∀ u ∈ seenSet acc t,
      ((seenSet acc t).filter (fun v => v.timestamp == u.timestamp)).getLast? =
        some u := by
  rw [seenSet]
  by_cases hany : acc.any (fun u => u.timestamp == t.timestamp) = true
  · rw [if_pos hany]
    intro u hu
    rcases List.mem_map.1 hu with ⟨u₀, hu₀, rfl⟩
    by_cases h : u₀.timestamp = t.timestamp
    · have hrep : (if u₀.timestamp == t.timestamp then t else u₀) = t := by
        simp [h]
      rw [hrep, filter_map_replace_self t acc hnd hany]
      rfl
    · have hrep : (if u₀.timestamp == t.timestamp then t else u₀) = u₀ := by
        simp [h]
      rw [hrep, filter_map_replace_ne t u₀.timestamp h acc]
      exact hacc u₀ hu₀
  · rw [if_neg hany]
    intro u hu
    rcases List.mem_append.1 hu with hu' | hu'
    · have hf1 : List.filter (fun v => v.timestamp == u.timestamp) [t] = [] := by
        rw [List.filter_eq_nil_iff]
        intro a ha hpa
        rw [List.mem_singleton] at ha
        rw [ha] at hpa
        exact hany (List.any_eq_true.2
          ⟨u, hu', beq_iff_eq.2 (beq_iff_eq.1 hpa).symm⟩)
      rw [List.filter_append, hf1, List.append_nil]
      exact hacc u hu'
    · rw [List.mem_singleton] at hu'
      rw [hu']
      have hnil : acc.filter (fun v => v.timestamp == t.timestamp) = [] := by
        rw [List.filter_eq_nil_iff]
        intro a ha hat
        exact hany (List.any_eq_true.2 ⟨a, ha, hat⟩)
      rw [List.filter_append, hnil, List.nil_append]
      simp [List.filter_cons]

lemma nodup_ts_seenSet (t : Trade) (acc : List Trade)
    (hnd : (acc.map (fun u => u.timestamp)).Nodup) :
    ((seenSet acc t).map (fun u => u.timestamp)).Nodup := by
  rw [seenSet]
  by_cases hany : acc.any (fun u => u.timestamp == t.timestamp) = true
  · rw [if_pos hany, map_ts_map_replace]
    exact hnd
  · rw [if_neg hany, List.map_append]
    rw [List.nodup_append]
    refine ⟨hnd, List.nodup_singleton _, ?_⟩
    intro a ha hb
    rw [List.map_cons, List.map_nil, List.mem_singleton] at hb
    rcases List.mem_map.1 ha with ⟨v, hv, hvt⟩
    apply hany
    refine List.any_eq_true.2 ⟨v, hv, beq_iff_eq.2 ?_⟩
    rw [hvt, hb]

lemma filter_getLast_foldl_seenSet : ∀ (l acc : List Trade),
    (acc.map (fun u => u.timestamp)).Nodup →
      (∀ u ∈ acc,
        (acc.filter (fun v => v.timestamp == u.timestamp)).getLast? = some u) →
      ∀ t' ∈ l.foldl seenSet acc,
        ((acc ++ l).filter
            (fun v => v.timestamp == t'.timestamp)).getLast? = some t' := by
  intro l
  induction l with
  | nil =>
    intro acc _ hacc t' ht'
    rw [List.foldl_nil] at ht'
    simpa using hacc t' ht'
  | cons t ts ih =>
    intro acc hnd hacc t' ht'
    rw [List.foldl_cons] at ht'
    have := ih (seenSet acc t) (nodup_ts_seenSet t acc hnd)
      (seenSet_self_describes t acc hnd hacc) t' ht'
    rw [← filter_getLast_seenSet_step t acc ts t'.timestamp hnd]
    exact this

lemma foldl_seenSet_of_strictIncr : ∀ (l acc : List Trade),
    (∀ u ∈ acc, ∀ v ∈ l, u.timestamp < v.timestamp) →
      StrictIncr l → l.foldl seenSet acc = acc ++ l := by
  intro l
  induction l with
  | nil => intro acc _ _; simp
  | cons t ts ih =>
    intro acc hb h
    rw [StrictIncr, List.pairwise_cons] at h
    have hany : ¬ acc.any (fun u => u.timestamp == t.timestamp) = true := by
      intro hc
      rcases List.any_eq_true.1 hc with ⟨v, hv, hvt⟩
      exact absurd (beq_iff_eq.1 hvt)
        (ne_of_lt (hb v hv t (List.mem_cons_self t ts)))
    rw [List.foldl_cons, seenSet, if_neg hany, ih (acc ++ [t]) ?_ h.2,
      List.append_assoc, List.singleton_append]
    intro u hu v hv
    rcases List.mem_append.1 hu with hu' | hu'
    · exact hb u hu' v (List.mem_cons_of_mem t hv)
    · rw [List.mem_singleton] at hu'
      rw [hu']
      exact h.1 v hv

/-! ## Assembled properties of `cleanData` -/

lemma strictIncr_dedup_sort (l : List Trade) :
    StrictIncr (dedupLastByTs (sortTrades l)) := by
  rw [dedupLastByTs]
  apply strictIncr_foldl_seenSet (sortTrades l) [] (pairwise_le_sortTrades l)
  · exact List.Pairwise.nil
  · intro u hu
    exact absurd hu (List.not_mem_nil u)

lemma cleanData_eq_dedup (l : List Trade) :
    cleanData l = dedupLastByTs (sortTrades l) := by
  rw [cleanData]
  apply sortTrades_of_pairwise_le
  exact (strictIncr_dedup_sort l).imp (fun hab => le_of_lt hab)

lemma cleanData_strictIncr (l : List Trade) : StrictIncr (cleanData l) := by
  rw [cleanData_eq_dedup]
  exact strictIncr_dedup_sort l

lemma cleanData_nodup_ts (l : List Trade) :
    ((cleanData l).map (fun u => u.timestamp)).Nodup :=
  strictIncr_nodup_ts _ (cleanData_strictIncr l)

lemma cleanData_getLast (l : List Trade) :
    ∀ t ∈ cleanData l,
      (l.filter (fun u => u.timestamp == t.timestamp)).getLast? = some t := by
  intro t ht
  rw [cleanData_eq_dedup, dedupLastByTs] at ht
  have h := filter_getLast_foldl_seenSet (sortTrades l) [] (by simp)
    (by intro u hu; exact absurd hu (List.not_mem_nil u)) t ht
  rw [List.nil_append] at h
  rw [← filter_sortTrades l t.timestamp]
  exact h

lemma mem_map_ts_iff_filter (l : List Trade) (τ : Int) :
    τ ∈ l.map (fun u => u.timestamp) ↔
      l.filter (fun u => u.timestamp == τ) ≠ [] := by
  rw [List.mem_map, Ne, List.filter_eq_nil_iff]
  constructor
  · rintro ⟨u, hu, rfl⟩ h
    exact h u hu (beq_iff_eq.2 rfl)
  · intro h
    by_contra hc
    apply h
    intro a ha hpa
    exact hc ⟨a, ha, beq_iff_eq.1 hpa⟩

lemma cleanData_mem_ts (l : List Trade) (τ : Int) :
    τ ∈ (cleanData l).map (fun u => u.timestamp) ↔
      τ ∈ l.map (fun u => u.timestamp) := by
  rw [cleanData_eq_dedup, dedupLastByTs,
    mem_ts_foldl_seenSet (sortTrades l) [] τ, List.nil_append,
    mem_map_ts_iff_filter, mem_map_ts_iff_filter, filter_sortTrades]

lemma cleanData_of_strictIncr (l : List Trade) (h : StrictIncr l) :
    cleanData l = l := by
  have hle : List.Pairwise (fun a b => a.timestamp ≤ b.timestamp) l :=
    h.imp (fun hab => le_of_lt hab)
  rw [cleanData, sortTrades_of_pairwise_le l hle, dedupLastByTs,
    foldl_seenSet_of_strictIncr l []
      (by intro u hu; exact absurd hu (List.not_mem_nil u)) h,
    List.nil_append, sortTrades_of_pairwise_le l hle]

lemma cleanData_idem (l : List Trade) : cleanData (cleanData l) = cleanData l :=
  cleanData_of_strictIncr _ (cleanData_strictIncr l)

/-! ## Claims C4 and C10 -/

/-- Claim C4 (confirmed): seeding with a historical batch `B` exposes (via
the read-time `cleanData` pass, `rows`) a series strictly increasing in
timestamp, with exactly one entry per distinct timestamp of `B` — every
timestamp of `B` survives, no timestamp repeats — and the entry kept for
each timestamp is the last-arriving record with that timestamp in `B`'s
original order; on the spec's Scenario 1 input the result is
`[{t:90,p:49},{t:100,p:50}]`. -/
theorem seed_cleanData_spec (st : AppState) (B : List Trade) :
    rows (applyFetch st.selected B st) = cleanData B ∧
      StrictIncr (cleanData B) ∧
      ((cleanData B).map (fun u => u.timestamp)).Nodup ∧
      (∀ t ∈ cleanData B,
        (B.filter (fun u => u.timestamp == t.timestamp)).getLast? = some t) ∧
      (∀ τ : Int, τ ∈ (cleanData B).map (fun u => u.timestamp) ↔
        τ ∈ B.map (fun u => u.timestamp)) ∧
      cleanData [⟨"A", 100, 50⟩, ⟨"A", 90, 49⟩] =
        [⟨"A", 90, 49⟩, ⟨"A", 100, 50⟩] := by
  refine ⟨?_, cleanData_strictIncr B, cleanData_nodup_ts B, cleanData_getLast B,
    fun τ => cleanData_mem_ts B τ, by decide⟩
  have h1 : (applyFetch st.selected B st).selected = st.selected := by
    rw [applyFetch]
    split <;> rfl
  have h2 : (applyFetch st.selected B st).dataBySymbol st.selected = B := by
    rw [applyFetch]
    split <;> simp
  rw [rows, h1, h2]

/-- Witness for `seed_cleanData_spec`: in the batch
`[{t:100,p:50},{t:90,p:49}]`, the entry the cleaned series keeps for
timestamp 90 is the (only) record with that timestamp. -/
theorem seed_cleanData_spec_witness :
    (([⟨"A", 100, 50⟩, ⟨"A", 90, 49⟩] : List Trade).filter
        (fun u => u.timestamp == (⟨"A", 90, 49⟩ : Trade).timestamp)).getLast? =
      some ⟨"A", 90, 49⟩ :=
  (seed_cleanData_spec ⟨"A", fun _ => [], 0⟩
    [⟨"A", 100, 50⟩, ⟨"A", 90, 49⟩]).2.2.2.1 ⟨"A", 90, 49⟩ (by decide)

/-- Claim C10 (confirmed): the sequence exposed to the presentation layer —
`cleanData` applied at read time, i.e. `rows` — is strictly increasing in
timestamp with at most one element per distinct timestamp, and `cleanData`
is idempotent: applied to its own output it returns an equal list. -/
theorem rows_cleanData_invariant (st : AppState) (l : List Trade) :
    StrictIncr (rows st) ∧ ((rows st).map (fun u => u.timestamp)).Nodup ∧
      cleanData (rows st) = rows st ∧
      cleanData (cleanData l) = cleanData l :=
  ⟨cleanData_strictIncr _, cleanData_nodup_ts _, cleanData_idem _,
    cleanData_idem l⟩

/-! ## Claim C3 -/

lemma strictIncr_le_getLast (l : List Trade) (a : Trade) (h : StrictIncr l)
    (hl : l.getLast? = some a) : ∀ u ∈ l, u.timestamp ≤ a.timestamp := by
  rcases List.getLast?_eq_some_iff.1 hl with ⟨l', rfl⟩
  rw [StrictIncr, List.pairwise_append] at h
  intro u hu
  rcases List.mem_append.1 hu with h1 | h1
  · exact le_of_lt (h.2.2 u h1 a (List.mem_singleton_self a))
  · rw [List.mem_singleton] at h1
    rw [h1]

lemma onTick_step_sorted (selected : String) (cur : List Trade) (delta : ℚ)
    (t : Trade) (hcur : StrictIncr cur)
    (hb : ∀ lastTrade ∈ cur.getLast?, lastTrade.timestamp ≤ t.timestamp) :
    StrictIncr (onTick selected cur delta t).1 ∧
      ∀ u ∈ (onTick selected cur delta t).1.getLast?,
        u.timestamp ≤ t.timestamp := by
  by_cases hsym : t.symbol = selected
  · cases hlast : cur.getLast? with
    | none =>
      rw [List.getLast?_eq_none_iff] at hlast
      subst hlast
      rw [onTick_of_empty selected delta t hsym]
      refine ⟨List.pairwise_singleton _ _, ?_⟩
      intro u hu
      rw [List.getLast?_singleton, Option.mem_def, Option.some_inj] at hu
      rw [← hu]
    | some lastTrade =>
      have hble := hb lastTrade hlast
      by_cases hts : t.timestamp = lastTrade.timestamp
      · by_cases hnear : |t.price - lastTrade.price| < eps
        · rw [onTick_of_dup selected cur delta t lastTrade hsym hlast hts hnear]
          refine ⟨hcur, ?_⟩
          intro u hu
          rw [hlast, Option.mem_def, Option.some_inj] at hu
          rw [← hu]
          exact hble
        · rw [onTick_of_correction selected cur delta t lastTrade hsym hlast
            hts hnear]
          rcases List.getLast?_eq_some_iff.1 hlast with ⟨l', hcur_eq⟩
          constructor
          · rw [hcur_eq, List.dropLast_concat]
            rw [hcur_eq, StrictIncr, List.pairwise_append] at hcur
            rw [StrictIncr, List.pairwise_append]
            refine ⟨hcur.1, List.pairwise_singleton _ _, ?_⟩
            intro a ha b hb'
            rw [List.mem_singleton] at hb'
            rw [hb', hts]
            exact hcur.2.2 a ha lastTrade (List.mem_singleton_self _)
          · intro u hu
            rw [List.getLast?_concat, Option.mem_def, Option.some_inj] at hu
            rw [← hu]
      · rw [onTick_of_new_ts selected cur delta t lastTrade hsym hlast hts]
        constructor
        · rw [StrictIncr, List.pairwise_append]
          refine ⟨hcur, List.pairwise_singleton _ _, ?_⟩
          intro a ha b hb'
          rw [List.mem_singleton] at hb'
          rw [hb']
          have h1 := strictIncr_le_getLast cur lastTrade hcur hlast a ha
          omega
        · intro u hu
          rw [List.getLast?_concat, Option.mem_def, Option.some_inj] at hu
          rw [← hu]
  · rw [onTick_of_not_selected selected cur delta t hsym]
    exact ⟨hcur, hb⟩

lemma mergeTicks_strictIncr_aux : ∀ (ticks : List Trade) (selected : String)
    (cur : List Trade) (delta : ℚ),
    StrictIncr cur →
      List.Pairwise (fun a b => a.timestamp ≤ b.timestamp) ticks →
      (∀ lastTrade ∈ cur.getLast?, ∀ t ∈ ticks,
        lastTrade.timestamp ≤ t.timestamp) →
      ∀ n : ℕ, StrictIncr (mergeTicks selected cur delta (ticks.take n)).1 := by
  intro ticks
  induction ticks with
  | nil =>
    intro selected cur delta hcur _ _ n
    rw [List.take_nil]
    exact hcur
  | cons t ts ih =>
    intro selected cur delta hcur hticks hbound n
    cases n with
    | zero =>
      rw [List.take_zero]
      exact hcur
    | succ m =>
      rw [List.take_succ_cons]
      rw [List.pairwise_cons] at hticks
      have hstep := onTick_step_sorted selected cur delta t hcur
        (fun lastTrade hl => hbound lastTrade hl t (List.mem_cons_self t ts))
      show StrictIncr (mergeTicks selected (onTick selected cur delta t).1
        (onTick selected cur delta t).2 (ts.take m)).1
      apply ih selected _ _ hstep.1 hticks.2 ?_ m
      intro lastTrade hl v hv
      have h1 := hstep.2 lastTrade hl
      have h2 := hticks.1 v hv
      omega

/-- Claim C3 counterexample: starting from the strictly increasing series
`[{t:100,p:50},{t:110,p:52}]`, merging the single live tick `{t:105,p:999}`
produces an intermediate series that is NOT strictly increasing — the older
tick is appended after the tail. -/
theorem c3_intermediate_not_sorted :
    StrictIncr [⟨"A", 100, 50⟩, ⟨"A", 110, 52⟩] ∧
      ¬ StrictIncr
        (mergeTicks "A" [⟨"A", 100, 50⟩, ⟨"A", 110, 52⟩] 0
          [⟨"A", 105, 999⟩]).1 := by
  constructor <;> decide

/-- Claim C3 (amended): for a strictly increasing initial series and a
sequence of live ticks that is non-decreasing in timestamp and starts no
earlier than the initial tail (so that no tick is older than the current
tail when it is merged), every intermediate series — after each prefix of
the tick sequence — is strictly increasing in timestamp with at most one
element per distinct timestamp.  Without that proviso the property fails:
an older-than-tail tick is appended out of order. -/
theorem mergeTicks_take_strictIncr (selected : String) (cur : List Trade)
    (delta : ℚ) (ticks : List Trade) (hcur : StrictIncr cur)
    (hticks : List.Pairwise (fun a b => a.timestamp ≤ b.timestamp) ticks)
    (hbound : ∀ lastTrade ∈ cur.getLast?, ∀ t ∈ ticks,
      lastTrade.timestamp ≤ t.timestamp) (n : ℕ) :
    StrictIncr (mergeTicks selected cur delta (ticks.take n)).1 ∧
      ((mergeTicks selected cur delta (ticks.take n)).1.map
          (fun u => u.timestamp)).Nodup := by
  have h := mergeTicks_strictIncr_aux ticks selected cur delta hcur hticks
    hbound n
  exact ⟨h, strictIncr_nodup_ts _ h⟩

/-- Witness for `mergeTicks_take_strictIncr` at the spec's Scenario 2 inputs. -/
theorem mergeTicks_take_strictIncr_witness :
    StrictIncr (mergeTicks "A" [⟨"A", 100, 50⟩] 0
        ([⟨"A", 110, 52⟩].take 1)).1 ∧
      ((mergeTicks "A" [⟨"A", 100, 50⟩] 0
          ([⟨"A", 110, 52⟩].take 1)).1.map (fun u => u.timestamp)).Nodup :=
  mergeTicks_take_strictIncr "A" [⟨"A", 100, 50⟩] 0 [⟨"A", 110, 52⟩]
    (by decide) (by decide)
    (by
      intro lastTrade hl v hv
      rw [List.getLast?_singleton, Option.mem_def, Option.some_inj] at hl
      rw [List.mem_singleton] at hv
      rw [← hl, hv]
      decide) 1

end ratEval
